import Mathlib

open List (Perm)

open scoped List

/-!
Verification development for the MADNESS RMI layer.

Embedded source: src/src/madness/world/worldrmi.h (the only RMI source file
present).  The companion implementation file worldrmi.cc (bodies of
RmiTask::process_some, RmiTask::isend, RmiTask::huge_msg_handler,
RmiTask::post_pending_huge_msg) is not in the source tree; those parts are
modelled from the specification, each marked with a doc comment starting
with `Modelled from the spec:`.

Conventions of the shallow embedding:
- machine integers are Nat with explicit `% 2^w` at the points where the
  C++ types wrap (uint16_t counters, uint32_t attribute words);
- `rmi_handlerT` (a function pointer) is abstracted to a Nat identifying
  the handler, since handlers are required to resolve identically on both
  ranks;
- `ProcessID` (an `int` in worldtypes.h) is Int;
- the dispatcher's handler invocations are recorded in a log list, in
  invocation order: the dispatcher is a single thread invoking handlers
  synchronously, so the log order is exactly the order in which handler
  invocations begin and complete.
-/

/-- ProcessID from worldtypes.h: integer identity of a process. -/
abbrev ProcessID := Int

/-- RMI::ATTR_UNORDERED (worldrmi.h line 147). -/
def ATTR_UNORDERED : Nat := 0

/-- RMI::ATTR_ORDERED (worldrmi.h line 148). -/
def ATTR_ORDERED : Nat := 1

/-- RMI::ALIGNMENT (worldrmi.h line 145). -/
def ALIGNMENT : Nat := 64

/-- RMI::HEADER_LEN (worldrmi.h line 146): chosen equal to ALIGNMENT. -/
def HEADER_LEN : Nat := ALIGNMENT

/-- Modulus of counterT = uint16_t (worldrmi.h lines 103, 137). -/
def counterT_mod : Nat := 65536

/-- Modulus of attrT = uint32_t (worldrmi.h lines 104, 138). -/
def attrT_mod : Nat := 4294967296

/-- RMI::DEFAULT_MAX_MSG_LEN (worldrmi.h line 249). -/
def DEFAULT_MAX_MSG_LEN : Nat := 3 * 512 * 1024

/-- RMI::DEFAULT_NRECV (worldrmi.h line 250). -/
def DEFAULT_NRECV : Nat := 128

/-- RmiTask::is_ordered (worldrmi.h line 189): attr & ATTR_ORDERED. -/
def is_ordered (attr : Nat) : Bool := (attr &&& ATTR_ORDERED) != 0

/-- struct qmsg (worldrmi.h lines 102-120): a received-but-undispatched
message: length, handler, buffer index, source, attribute word, counter. -/
structure qmsg where
  len : Nat
  func : Nat
  i : Nat
  src : ProcessID
  attr : Nat
  count : Nat
deriving DecidableEq

/-- qmsg::operator< (worldrmi.h lines 115-117): compares only the
sequence counter; the source rank plays no part. -/
def qmsg.lt (a b : qmsg) : Bool := decide (a.count < b.count)

/-- Non-strict counter comparison used to keep the pending queue sorted
(the sorting the worldrmi implementation performs with qmsg::operator<). -/
def qle (a b : qmsg) : Prop := a.count ≤ b.count

instance : DecidableRel qle := fun a b => inferInstanceAs (Decidable (a.count ≤ b.count))

instance : IsTotal qmsg qle := ⟨fun a b => Nat.le_total a.count b.count⟩

instance : IsTrans qmsg qle := ⟨fun _ _ _ h1 h2 => Nat.le_trans h1 h2⟩

/-- struct RmiTask::header (worldrmi.h lines 164-167): exactly two fields,
a handler reference and the 32-bit attribute word.  There is no payload
length field and no separate counter field. -/
structure header where
  func : Nat
  attr : Nat
deriving DecidableEq

/-- Modelled size of rmi_handlerT (a function pointer) on an LP64 platform. -/
def sizeof_rmi_handlerT : Nat := 8

/-- Modelled size of attrT = uint32_t. -/
def sizeof_attrT : Nat := 4

/-- Modelled sizeof(RmiTask::header) on an LP64 platform: an 8-byte
pointer followed by a 4-byte word, padded to 8-byte alignment. -/
def sizeof_header : Nat := 16

/-- Modelled from the spec: the header construction performed by
RmiTask::isend in worldrmi.cc (absent from src).  The spec (section 4.1)
says the send path builds a header and optionally stamps the per
destination counter; since the header struct declared in worldrmi.h has
only the fields func and attr, the 16-bit counter can only travel packed
into the high 16 bits of the 32-bit attribute word. -/
def mkHeader (fu attr count : Nat) : header :=
  { func := fu, attr := (attr ||| (count <<< 16)) % attrT_mod }

/-- Receive-side extraction of the counter from a header's attribute word
(high 16 bits). -/
def headerCount (h : header) : Nat := h.attr >>> 16

/-- Receive-side extraction of the attribute bits from a header's
attribute word (low 16 bits). -/
def headerAttrBits (h : header) : Nat := h.attr &&& 65535

/-- Send-relevant fields of RmiTask (worldrmi.h lines 169-187):
configured limits and the per-destination send counters. -/
structure RmiTaskState where
  max_msg_len_ : Nat
  nrecv_ : Nat
  maxq_ : Nat
  send_counters : ProcessID → Nat

/-- Pointwise update of a per-rank counter table. -/
def upd (f : ProcessID → Nat) (x : ProcessID) (v : Nat) : ProcessID → Nat :=
  fun y => if y = x then v else f y

/-- A non-blocking transport operation issued by the send path. -/
inductive TransportOp where
  | sendMsg : ProcessID → header → Nat → TransportOp
  | sendHugeAnnounce : ProcessID → header → Nat → TransportOp
deriving DecidableEq

/-- Result of the task-level send: updated task state, the header that
was stamped into the buffer, and the transport operations issued. -/
structure IsendResult where
  task : RmiTaskState
  hdr : header
  ops : List TransportOp

/-- Modelled from the spec: the body of RmiTask::isend lives in
worldrmi.cc, absent from src.  Per spec section 4.1: build a header;
when ordering is requested, atomically stamp the next per-(source,
destination) counter (counterT is uint16_t per worldrmi.h, so the
increment wraps modulo 2^16); issue a non-blocking transport send.  For
payloads beyond the ordinary limit, a header-only announcement precedes
the payload transfer (spec section 4.4). -/
def RmiTask.isendModel (t : RmiTaskState) (nbyte : Nat) (dest : ProcessID)
    (fu : Nat) (attr : Nat) : IsendResult :=
  let count := if is_ordered attr then t.send_counters dest else 0
  let t' := if is_ordered attr then
      { t with send_counters := upd t.send_counters dest ((t.send_counters dest + 1) % counterT_mod) }
    else t
  let h := mkHeader fu attr count
  if nbyte > t.max_msg_len_ then
    { task := t', hdr := h, ops := [TransportOp.sendHugeAnnounce dest h nbyte, TransportOp.sendMsg dest h nbyte] }
  else
    { task := t', hdr := h, ops := [TransportOp.sendMsg dest h nbyte] }

/-- Process-wide RMI static state: the singleton task pointer
(RMI::task_ptr, worldrmi.h line 245) and the debug flag. -/
structure RMIState where
  task_ptr : Option RmiTaskState
  debugging : Bool

/-- The message of the MADNESS_EXCEPTION raised by RMI::isend when the
server thread is not running (worldrmi.h line 284). -/
def rmiNotRunningError : String := "!! MADNESS error: The RMI thread is not running"

/-- RMI::isend (worldrmi.h lines 278-287): if the singleton task pointer
is null the call raises a MADNESS exception (modelled as Except.error)
before any transport activity; otherwise it delegates to the task-level
send. -/
def RMI.isend (g : RMIState) (nbyte : Nat) (dest : ProcessID) (fu : Nat) (attr : Nat) :
    Except String (RMIState × IsendResult) :=
  match g.task_ptr with
  | none => Except.error rmiNotRunningError
  | some t =>
    let r := RmiTask.isendModel t nbyte dest fu attr
    Except.ok ({ g with task_ptr := some r.task }, r)

/-- RMI::max_msg_len (worldrmi.h lines 258-260): the running instance's
configured value when the task exists, the default otherwise. -/
def RMI.max_msg_len (g : RMIState) : Nat :=
  match g.task_ptr with
  | some t => t.max_msg_len_
  | none => DEFAULT_MAX_MSG_LEN

/-- RMI::end (worldrmi.h lines 312-321); named end' because `end` is a
Lean keyword.  When the task pointer is null the body is skipped
entirely; otherwise the task is shut down and the pointer cleared. -/
def RMI.end' (g : RMIState) : RMIState :=
  match g.task_ptr with
  | none => g
  | some _ => { g with task_ptr := none }

/-- The backoff value established by RMI::begin (worldrmi.h lines
289-298): testsome_backoff_us starts at 5; when the MAD_BACKOFF_US
environment variable is present its parsed value replaces it and is then
clamped, first below at 0, then above at 100. -/
def backoffAfterBegin (env : Option Int) : Int :=
  match env with
  | none => 5
  | some v =>
    let t1 := if v < 0 then 0 else v
    if t1 > 100 then 100 else t1

/-! Dispatcher (receive side).  State owned by the single server thread:
per-source expected counters (recv_counters, worldrmi.h line 177), the
single pending queue shared by all sources (q / n_in_q, worldrmi.h lines
186-187), and the log of handler invocations in order. -/

/-- Receive-side dispatcher state. -/
structure RmiState where
  counters : ProcessID → Nat
  q : List qmsg
  log : List qmsg

/-- Modelled from the spec: the drain step of RmiTask::process_some
(worldrmi.cc, absent from src).  Spec section 4.2: after an in-order
dispatch, the pending entries are visited in increasing counter order and
every entry whose counter equals its own source's expectation is
dispatched, advancing that expectation.  One pass over the
counter-sorted queue dispatches every entry that becomes contiguous.
Returns (updated expectations, kept entries, dispatched entries in
dispatch order). -/
def drainPass (ctr : ProcessID → Nat) : List qmsg → ((ProcessID → Nat) × List qmsg × List qmsg)
  | [] => (ctr, [], [])
  | e :: rest =>
    if e.count = ctr e.src then
      let r := drainPass (upd ctr e.src (ctr e.src + 1)) rest
      (r.1, r.2.1, e :: r.2.2)
    else
      let r := drainPass ctr rest
      (r.1, e :: r.2.1, r.2.2)

/-- Modelled from the spec: per-message handling of RmiTask::process_some
(worldrmi.cc, absent from src).  Spec section 4.2: an unordered message
is dispatched immediately; an ordered message whose counter equals its
source's expectation is dispatched, the expectation advanced, and the
pending queue drained; an out-of-order message is inserted into the
pending queue, which is kept sorted by counter (qmsg::operator<). -/
def processMsg (st : RmiState) (m : qmsg) : RmiState :=
  if is_ordered m.attr then
    if m.count = st.counters m.src then
      let ctr1 := upd st.counters m.src (st.counters m.src + 1)
      let r := drainPass ctr1 st.q
      { counters := r.1, q := r.2.1, log := st.log ++ m :: r.2.2 }
    else
      { st with q := List.orderedInsert qle m st.q }
  else
    { st with log := st.log ++ [m] }

/-- Modelled from the spec: the dispatcher loop processes completed
receives one after another (single server thread). -/
def processAll (arr : List qmsg) (st : RmiState) : RmiState :=
  arr.foldl processMsg st

/-- Dispatcher state at RMI::begin: all expectations zero, nothing
pending, nothing dispatched. -/
def initState : RmiState := { counters := fun _ => 0, q := [], log := [] }

/-- Counters of the entries of a given source, in list order. -/
def srcCounts (s : ProcessID) (l : List qmsg) : List Nat :=
  (l.filter (fun e => decide (e.src = s))).map (fun e => e.count)

/-- Counters of the ordered entries of a given source, in list order.
Applied to the dispatch log this is the sequence of ordered handler
invocations for that source; applied to an arrival list it is the
sequence of ordered sends from that source in arrival order. -/
def okeys (s : ProcessID) (l : List qmsg) : List Nat :=
  (l.filter (fun e => decide (e.src = s) && is_ordered e.attr)).map (fun e => e.count)

/-! Huge-message admission queue (RmiTask::hugeq, worldrmi.h line 169):
a single std::list of {source, size} descriptors. -/

/-- An event affecting the huge-descriptor queue: an announcement
arriving, or a dedicated oversize buffer becoming postable. -/
inductive HugeOp where
  | announce : ProcessID → Nat → HugeOp
  | post : HugeOp
deriving DecidableEq

/-- Huge-descriptor queue state: the pending std::list plus the log of
descriptors consumed, in consumption order. -/
structure HugeState where
  hugeq : List (ProcessID × Nat)
  consumed : List (ProcessID × Nat)
deriving DecidableEq

/-- Modelled from the spec: RmiTask::huge_msg_handler and
RmiTask::post_pending_huge_msg live in worldrmi.cc, absent from src.
Spec section 4.4: an announcement that cannot be served at once is
appended to the descriptor list; when an oversize buffer can be posted
the descriptor at the front of the list is consumed.  The list is the
single std::list declared in worldrmi.h line 169. -/
def hugeStep (st : HugeState) : HugeOp → HugeState
  | HugeOp.announce src size => { st with hugeq := st.hugeq ++ [(src, size)] }
  | HugeOp.post =>
    match st.hugeq with
    | [] => st
    | d :: rest => { hugeq := rest, consumed := st.consumed ++ [d] }

/-- Run a sequence of huge-queue events from the empty queue. -/
def hugeRun (ops : List HugeOp) : HugeState :=
  ops.foldl hugeStep { hugeq := [], consumed := [] }

/-- The descriptors announced by a sequence of events, in announcement
order. -/
def announced (ops : List HugeOp) : List (ProcessID × Nat) :=
  ops.filterMap (fun op => match op with
    | HugeOp.announce s n => some (s, n)
    | HugeOp.post => none)

/-! Shutdown handshake (RmiTask::exit, worldrmi.h lines 221-229, and
RmiTask::run, lines 209-218): the caller sets the volatile finished flag
and busy-waits until the server thread, on leaving its loop, clears it. -/

/-- Dispatcher thread status: still in its processing loop, or exited. -/
inductive DState where
  | running
  | exited
deriving DecidableEq

/-- Caller status around RmiTask::exit: not yet called, busy-waiting
inside exit(), or returned from exit(). -/
inductive CState where
  | idle
  | waiting
  | returned
deriving DecidableEq

/-- Joint state of the shutdown handshake, with a count of handler
invocations performed by the dispatcher. -/
structure ExitSync where
  finished : Bool
  disp : DState
  caller : CState
  handlers : Nat
deriving DecidableEq

/-- Initial handshake state: flag clear, dispatcher looping, exit() not
yet called. -/
def ExitSync.start : ExitSync :=
  { finished := false, disp := DState.running, caller := CState.idle, handlers := 0 }

/-- Interleaved steps of the two threads.  `process`: the dispatcher,
still in its loop, runs process_some and may invoke handlers.  `leave`:
the dispatcher observes finished, leaves the loop and clears the flag
(RmiTask::run: `while (! finished) process_some(); finished = false;`).
`signal`: the caller enters exit() and sets finished.  `ret`: the caller,
busy-waiting `while (finished) myusleep(1000);`, observes the cleared
flag and returns from exit(). -/
inductive ExitStep : ExitSync → ExitSync → Prop where
  | process (s : ExitSync) : s.disp = DState.running →
      ExitStep s { s with handlers := s.handlers + 1 }
  | leave (s : ExitSync) : s.disp = DState.running → s.finished = true →
      ExitStep s { s with disp := DState.exited, finished := false }
  | signal (s : ExitSync) : s.caller = CState.idle →
      ExitStep s { s with caller := CState.waiting, finished := true }
  | ret (s : ExitSync) : s.caller = CState.waiting → s.finished = false →
      ExitStep s { s with caller := CState.returned }

/-- States reachable by the handshake. -/
inductive ExitReach : ExitSync → Prop where
  | start : ExitReach ExitSync.start
  | step {s t : ExitSync} : ExitReach s → ExitStep s t → ExitReach t

/-- Invariant of the ordering engine for one fixed source s, relating
the dispatcher state to the list doneS of ordered counters from s whose
arrivals have been processed so far: the queue is counter-sorted and
holds only ordered messages; the ordered dispatch log of s is exactly
the counters below s's expectation, in increasing order; every pending
counter of s exceeds the expectation; and the pending counters of s
together with the dispatched ones account exactly for doneS. -/
structure EngineInv (s : ProcessID) (doneS : List Nat) (st : RmiState) : Prop where
  hsorted : st.q.Sorted qle
  hord : ∀ e ∈ st.q, is_ordered e.attr = true
  hlog : okeys s st.log = List.range (st.counters s)
  hqgt : ∀ c ∈ srcCounts s st.q, st.counters s < c
  hperm : (srcCounts s st.q ++ List.range (st.counters s)).Perm doneS

/-- A concrete configured task state used by the C9 witness. -/
def taskW9 : RmiTaskState :=
  { max_msg_len_ := 4096, nrecv_ := 16, maxq_ := 64, send_counters := fun _ => 0 }

/-- A concrete task state whose counter toward every destination sits at
the top of the 16-bit range, used by the C8 witness. -/
def taskW8 : RmiTaskState :=
  { max_msg_len_ := DEFAULT_MAX_MSG_LEN, nrecv_ := 128, maxq_ := 512,
    send_counters := fun _ => 65535 }

/-! Theorems. -/

/-- upd at the updated point. -/
theorem upd_same (f : ProcessID → Nat) (x : ProcessID) (v : Nat) : upd f x v x = v := by
  simp [upd]

/-- upd away from the updated point. -/
theorem upd_other (f : ProcessID → Nat) (x : ProcessID) (v : Nat) (y : ProcessID)
    (h : y ≠ x) : upd f x v y = f y := by
  simp [upd, h]

/-- C5: at RMI::begin the inter-poll backoff defaults to 5 microseconds;
an override from MAD_BACKOFF_US is clamped into [0, 100] (a negative
value becomes 0, a value above 100 becomes 100). -/
theorem backoff_default_five_and_clamped :
    backoffAfterBegin none = 5 ∧
    (∀ v : Int, backoffAfterBegin (some v) = min (max v 0) 100) ∧
    (∀ v : Int, 0 ≤ backoffAfterBegin (some v) ∧ backoffAfterBegin (some v) ≤ 100) := by
  refine ⟨rfl, ?_, ?_⟩ <;> intro v <;>
    simp only [backoffAfterBegin, min_def, max_def] <;> split_ifs <;> omega

/-- C2: a call to the static RMI::isend made while the dispatcher is not
running (task_ptr null) fails with the MADNESS exception and produces no
transport send and no request handle. -/
theorem isend_fails_when_dispatcher_not_running :
    ∀ (g : RMIState) (nbyte : Nat) (dest : ProcessID) (fu attr : Nat),
      g.task_ptr = none →
      RMI.isend g nbyte dest fu attr = Except.error rmiNotRunningError := by
  intro g nbyte dest fu attr h
  simp [RMI.isend, h]

/-- Witness for C2 at a concrete state with a null task pointer. -/
theorem isend_fails_witness :
    (({ task_ptr := none, debugging := false } : RMIState).task_ptr = none) ∧
    RMI.isend { task_ptr := none, debugging := false } 4 1 7 0 =
      Except.error rmiNotRunningError :=
  ⟨rfl, isend_fails_when_dispatcher_not_running _ 4 1 7 0 rfl⟩

/-- C9: the buffer pool defaults are 128 pre-posted slots of 3*512*1024
bytes each, and RMI::max_msg_len returns the running instance's
configured value when the task exists and the default otherwise. -/
theorem buffer_pool_defaults_and_accessor :
    DEFAULT_NRECV = 128 ∧
    DEFAULT_MAX_MSG_LEN = 3 * 512 * 1024 ∧
    (∀ (g : RMIState) (t : RmiTaskState), g.task_ptr = some t →
        RMI.max_msg_len g = t.max_msg_len_) ∧
    (∀ g : RMIState, g.task_ptr = none →
        RMI.max_msg_len g = DEFAULT_MAX_MSG_LEN) := by
  refine ⟨rfl, rfl, ?_, ?_⟩
  · intro g t h
    simp [RMI.max_msg_len, h]
  · intro g h
    simp [RMI.max_msg_len, h]

/-- Witness for C9: a configured instance reports its own limit; a
stopped instance reports the default. -/
theorem buffer_pool_defaults_witness :
    (({ task_ptr := some taskW9, debugging := false } : RMIState).task_ptr = some taskW9) ∧
    RMI.max_msg_len { task_ptr := some taskW9, debugging := false } = taskW9.max_msg_len_ ∧
    RMI.max_msg_len { task_ptr := none, debugging := false } = DEFAULT_MAX_MSG_LEN :=
  ⟨rfl,
   buffer_pool_defaults_and_accessor.2.2.1 _ _ rfl,
   buffer_pool_defaults_and_accessor.2.2.2 _ rfl⟩

/-- C10: RMI::end with no running dispatcher is a no-op that changes no
state, and RMI::end is idempotent. -/
theorem end_noop_when_not_running_and_idempotent :
    (∀ g : RMIState, g.task_ptr = none → RMI.end' g = g) ∧
    (∀ g : RMIState, RMI.end' (RMI.end' g) = RMI.end' g) := by
  constructor
  · intro g h
    simp [RMI.end', h]
  · intro g
    cases h : g.task_ptr <;> simp [RMI.end', h]

/-- Witness for C10 at a concrete state with a null task pointer. -/
theorem end_noop_witness :
    (({ task_ptr := none, debugging := false } : RMIState).task_ptr = none) ∧
    RMI.end' { task_ptr := none, debugging := false } =
      { task_ptr := none, debugging := false } :=
  ⟨rfl, end_noop_when_not_running_and_idempotent.1 _ rfl⟩

/-- C8: counterT is 16-bit; a counter is assigned only when ordering is
requested (an unordered send leaves every counter untouched), each
ordered send increments exactly the counter of its destination, and the
increment is taken modulo 2^16 so that 65535 wraps to 0 without any
failure. -/
theorem send_counter_16bit_per_destination_wrapping :
    counterT_mod = 2 ^ 16 ∧
    (∀ (t : RmiTaskState) (n : Nat) (dest : ProcessID) (fu a : Nat),
        is_ordered a = false →
        (RmiTask.isendModel t n dest fu a).task.send_counters = t.send_counters) ∧
    (∀ (t : RmiTaskState) (n : Nat) (dest : ProcessID) (fu a : Nat),
        is_ordered a = true →
        (RmiTask.isendModel t n dest fu a).task.send_counters dest =
            (t.send_counters dest + 1) % counterT_mod ∧
        (∀ d : ProcessID, d ≠ dest →
            (RmiTask.isendModel t n dest fu a).task.send_counters d =
              t.send_counters d)) := by
  refine ⟨rfl, ?_, ?_⟩
  · intro t n dest fu a h
    simp only [RmiTask.isendModel, h]
    split <;> rfl
  · intro t n dest fu a h
    constructor
    · simp only [RmiTask.isendModel, h]
      split <;> simp [upd_same]
    · intro d hd
      simp only [RmiTask.isendModel, h]
      split <;> simp [upd_other _ _ _ _ hd]

/-- Witness for C8: an ordered send through a counter at 65535 wraps the
counter of that destination to 0. -/
theorem send_counter_wrap_witness :
    is_ordered 1 = true ∧
    (RmiTask.isendModel taskW8 8 3 7 1).task.send_counters 3 = 0 := by
  refine ⟨by decide, ?_⟩
  have h := (send_counter_16bit_per_destination_wrapping.2.2 taskW8 8 3 7 1 (by decide)).1
  rw [h]
  decide

/-- C6: huge-message descriptors are recorded as {source, size} pairs and
consumed front-first, so for every source rank the consumed descriptors,
followed by the ones still queued, list that source's announcements in
announcement order: consumption is FIFO per source. -/
theorem huge_descriptors_fifo_per_source :
    ∀ (ops : List HugeOp) (s : ProcessID),
      ((hugeRun ops).consumed.filter (fun d => decide (d.1 = s))) ++
        ((hugeRun ops).hugeq.filter (fun d => decide (d.1 = s))) =
      (announced ops).filter (fun d => decide (d.1 = s)) := by
  have main : ∀ (ops : List HugeOp) (st : HugeState),
      (ops.foldl hugeStep st).consumed ++ (ops.foldl hugeStep st).hugeq =
        st.consumed ++ st.hugeq ++ announced ops := by
    intro ops
    induction ops with
    | nil => intro st; simp [announced]
    | cons op rest ih =>
      intro st
      cases op with
      | announce src size =>
        rw [List.foldl_cons]
        rw [ih]
        simp [hugeStep, announced, List.append_assoc]
      | post =>
        rw [List.foldl_cons]
        rw [ih]
        cases hq : st.hugeq with
        | nil => simp [hugeStep, hq, announced]
        | cons d qrest =>
          simp [hugeStep, hq, announced, List.append_assoc]
  intro ops s
  rw [← List.filter_append]
  rw [show (hugeRun ops).consumed ++ (hugeRun ops).hugeq = announced ops from by
    have := main ops { hugeq := [], consumed := [] }
    simpa [hugeRun] using this]

/-- The two-location safety invariant of the shutdown handshake: a
waiting caller means the flag is still set or the dispatcher has already
left its loop, and a returned caller means the dispatcher has left. -/
theorem exit_handshake_invariant :
    ∀ s : ExitSync, ExitReach s →
      (s.caller = CState.waiting → (s.finished = true ∨ s.disp = DState.exited)) ∧
      (s.caller = CState.returned → s.disp = DState.exited) := by
  intro s h
  induction h with
  | start => simp [ExitSync.start]
  | step hr hs ih =>
    cases hs with
    | process hrun => exact ih
    | leave hrun hfin => exact ⟨fun _ => Or.inr rfl, fun _ => rfl⟩
    | signal hidle =>
      refine ⟨fun _ => Or.inl rfl, fun hret => ?_⟩
      exact absurd hret (by simp)
    | ret hwait hfin =>
      refine ⟨fun hw => ?_, fun _ => ?_⟩
      · exact absurd hw (by simp)
      · rcases (ih.1 hwait) with hf | hd
        · rw [hfin] at hf
          exact absurd hf (by simp)
        · exact hd

/-- C7: in every reachable state of the shutdown handshake in which
RmiTask::exit has returned, the dispatcher thread has fully left its
processing loop, and no step from such a state performs a handler
invocation; moreover RMI::end leaves the singleton task pointer null. -/
theorem end_blocks_until_dispatcher_exits :
    (∀ s : ExitSync, ExitReach s → s.caller = CState.returned →
        s.disp = DState.exited ∧
        (∀ t : ExitSync, ExitStep s t → t.handlers = s.handlers)) ∧
    (∀ g : RMIState, (RMI.end' g).task_ptr = none) := by
  constructor
  · intro s hr hret
    have hinv := exit_handshake_invariant s hr
    have hexited := hinv.2 hret
    refine ⟨hexited, ?_⟩
    intro t hstep
    cases hstep with
    | process hrun => rw [hexited] at hrun; exact absurd hrun (by simp)
    | leave hrun hfin => rfl
    | signal hidle => rfl
    | ret hwait hfin => rfl
  · intro g
    cases h : g.task_ptr <;> simp [RMI.end', h]

/-- Witness for C7: a concrete reachable state in which exit() has
returned; the theorem applies to it and yields that the dispatcher has
exited and no step invokes a handler. -/
theorem end_blocks_witness :
    ExitReach { finished := false, disp := DState.exited, caller := CState.returned, handlers := 0 } ∧
    ({ finished := false, disp := DState.exited, caller := CState.returned, handlers := 0 } : ExitSync).disp = DState.exited ∧
    (∀ t : ExitSync,
        ExitStep { finished := false, disp := DState.exited, caller := CState.returned, handlers := 0 } t →
        t.handlers = 0) := by
  have h1 : ExitStep ExitSync.start
      { finished := true, disp := DState.running, caller := CState.waiting, handlers := 0 } := by
    have := ExitStep.signal ExitSync.start (by rfl)
    simpa [ExitSync.start] using this
  have h2 : ExitStep
      { finished := true, disp := DState.running, caller := CState.waiting, handlers := 0 }
      { finished := false, disp := DState.exited, caller := CState.waiting, handlers := 0 } := by
    have := ExitStep.leave
      { finished := true, disp := DState.running, caller := CState.waiting, handlers := 0 }
      (by rfl) (by rfl)
    simpa using this
  have h3 : ExitStep
      { finished := false, disp := DState.exited, caller := CState.waiting, handlers := 0 }
      { finished := false, disp := DState.exited, caller := CState.returned, handlers := 0 } := by
    have := ExitStep.ret
      { finished := false, disp := DState.exited, caller := CState.waiting, handlers := 0 }
      (by rfl) (by rfl)
    simpa using this
  have hreach : ExitReach
      { finished := false, disp := DState.exited, caller := CState.returned, handlers := 0 } :=
    ExitReach.step (ExitReach.step (ExitReach.step ExitReach.start h1) h2) h3
  have hmain := end_blocks_until_dispatcher_exits.1 _ hreach rfl
  exact ⟨hreach, hmain.1, hmain.2⟩

/-- Helper: for a low half-word below 2^16, or-ing in a counter shifted
left by 16 is the same as adding it (the bit ranges are disjoint). -/
theorem lor_shiftLeft_sixteen_eq_add (a c : Nat) (ha : a < 65536) :
    a ||| (c <<< 16) = 65536 * c + a := by
  have h1 : c <<< 16 = 2 ^ 16 * c := by
    rw [Nat.shiftLeft_eq]; ring
  have h2 : (2:Nat) ^ 16 * c + a = 2 ^ 16 * c ||| a :=
    Nat.mul_add_lt_is_or (by simpa using ha) c
  rw [Nat.or_comm, h1, ← h2]
  norm_num

/-- C4 counterexample: the header stamped by the send path does not
contain the payload length: no function of the header can recover it,
since sends of 10 and of 20 bytes carry identical headers.  The struct
header declared in worldrmi.h lines 164-167 has only the fields func and
attr. -/
theorem header_lacks_payload_length :
    ¬ ∃ f : header → Nat, ∀ nbyte : Nat,
        f (RmiTask.isendModel taskW9 nbyte 1 7 ATTR_UNORDERED).hdr = nbyte := by
  rintro ⟨f, hf⟩
  have h10 := hf 10
  have h20 := hf 20
  have hsame : (RmiTask.isendModel taskW9 10 1 7 ATTR_UNORDERED).hdr =
      (RmiTask.isendModel taskW9 20 1 7 ATTR_UNORDERED).hdr := by decide
  rw [hsame] at h10
  rw [h10] at h20
  exact absurd h20 (by decide)

/-- C4 amended: the message header is a fixed-size record of a handler
reference and a 32-bit attribute word packing the attribute bits (low 16
bits) and the sequence counter (high 16 bits); the payload length is not
part of the header (it is recovered from the transport's status on
receive).  HEADER_LEN equals ALIGNMENT equals 64 bytes, sizeof(header)
is at most HEADER_LEN, and HEADER_LEN is a multiple of ALIGNMENT, so the
payload start is aligned regardless of header content. -/
theorem header_fixed_size_aligned_packing :
    HEADER_LEN = ALIGNMENT ∧ ALIGNMENT = 64 ∧
    sizeof_header ≤ HEADER_LEN ∧ HEADER_LEN % ALIGNMENT = 0 ∧
    (∀ fu a c : Nat, a < 65536 → c < 65536 →
        headerCount (mkHeader fu a c) = c ∧
        headerAttrBits (mkHeader fu a c) = a) := by
  refine ⟨rfl, rfl, by decide, by decide, ?_⟩
  intro fu a c ha hc
  have hval : (mkHeader fu a c).attr = 65536 * c + a := by
    have hlt : 65536 * c + a < attrT_mod := by
      have : c ≤ 65535 := by omega
      have : 65536 * c ≤ 65536 * 65535 := Nat.mul_le_mul_left _ this
      simp only [attrT_mod]
      omega
    simp only [mkHeader, lor_shiftLeft_sixteen_eq_add a c ha]
    exact Nat.mod_eq_of_lt hlt
  constructor
  · simp only [headerCount, hval]
    rw [Nat.shiftRight_eq_div_pow]
    have h65536 : (2:Nat) ^ 16 = 65536 := by norm_num
    rw [h65536, Nat.mul_add_div (by norm_num), Nat.div_eq_of_lt ha]
    omega
  · simp only [headerAttrBits, hval]
    have h65535 : (65535:Nat) = 2 ^ 16 - 1 := by norm_num
    rw [h65535, Nat.and_pow_two_sub_one_eq_mod]
    have h65536 : (2:Nat) ^ 16 = 65536 := by norm_num
    rw [h65536, Nat.mul_add_mod, Nat.mod_eq_of_lt ha]

/-- Witness for C4: a concrete attribute word 1 (ordered) and counter 5
round-trip through the packed header. -/
theorem header_packing_witness :
    (1:Nat) < 65536 ∧ (5:Nat) < 65536 ∧
    headerCount (mkHeader 7 1 5) = 5 ∧ headerAttrBits (mkHeader 7 1 5) = 1 := by
  have h := header_fixed_size_aligned_packing.2.2.2.2 7 1 5 (by decide) (by decide)
  exact ⟨by decide, by decide, h.1, h.2⟩

/-- srcCounts distributes over append. -/
theorem srcCounts_append (s : ProcessID) (l1 l2 : List qmsg) :
    srcCounts s (l1 ++ l2) = srcCounts s l1 ++ srcCounts s l2 := by
  simp [srcCounts, List.filter_append]

/-- srcCounts on a cons whose head has the source. -/
theorem srcCounts_cons_of_src (s : ProcessID) (m : qmsg) (l : List qmsg)
    (h : m.src = s) : srcCounts s (m :: l) = m.count :: srcCounts s l := by
  simp [srcCounts, List.filter_cons, h]

/-- srcCounts on a cons whose head has another source. -/
theorem srcCounts_cons_of_ne (s : ProcessID) (m : qmsg) (l : List qmsg)
    (h : ¬ m.src = s) : srcCounts s (m :: l) = srcCounts s l := by
  simp [srcCounts, List.filter_cons, h]

/-- Membership in srcCounts from a member of the list with that source. -/
theorem mem_srcCounts (s : ProcessID) (l : List qmsg) (e : qmsg)
    (he : e ∈ l) (hs : e.src = s) : e.count ∈ srcCounts s l := by
  exact List.mem_map.mpr ⟨e, List.mem_filter.mpr ⟨he, by simp [hs]⟩, rfl⟩

/-- srcCounts respects permutations. -/
theorem srcCounts_perm (s : ProcessID) {l1 l2 : List qmsg} (h : l1.Perm l2) :
    (srcCounts s l1).Perm (srcCounts s l2) :=
  (h.filter _).map _

/-- okeys distributes over append. -/
theorem okeys_append (s : ProcessID) (l1 l2 : List qmsg) :
    okeys s (l1 ++ l2) = okeys s l1 ++ okeys s l2 := by
  simp [okeys, List.filter_append]

/-- okeys on a cons whose head is an ordered message of the source. -/
theorem okeys_cons_of_key (s : ProcessID) (m : qmsg) (l : List qmsg)
    (hs : m.src = s) (ho : is_ordered m.attr = true) :
    okeys s (m :: l) = m.count :: okeys s l := by
  simp [okeys, List.filter_cons, hs, ho]

/-- okeys on a cons whose head is of another source. -/
theorem okeys_cons_of_ne (s : ProcessID) (m : qmsg) (l : List qmsg)
    (hs : ¬ m.src = s) : okeys s (m :: l) = okeys s l := by
  simp [okeys, List.filter_cons, hs]

/-- okeys on a cons whose head is unordered. -/
theorem okeys_cons_of_unordered (s : ProcessID) (m : qmsg) (l : List qmsg)
    (ho : is_ordered m.attr = false) : okeys s (m :: l) = okeys s l := by
  simp [okeys, List.filter_cons, ho]

/-- On lists of ordered messages, okeys and srcCounts agree. -/
theorem okeys_eq_srcCounts (s : ProcessID) (l : List qmsg)
    (h : ∀ e ∈ l, is_ordered e.attr = true) : okeys s l = srcCounts s l := by
  unfold okeys srcCounts
  congr 1
  apply List.filter_congr
  intro e he
  simp [h e he]

/-- The source-s counters of a counter-sorted queue are weakly sorted. -/
theorem srcCounts_pairwise_le (s : ProcessID) (q : List qmsg)
    (h : q.Sorted qle) : List.Pairwise (fun a b => a ≤ b) (srcCounts s q) := by
  unfold srcCounts
  exact ((h.filter _).map _ (fun a b hab => hab))

/-- Weakly sorted plus no duplicates gives strictly sorted. -/
theorem pairwise_lt_of_le_nodup (l : List Nat)
    (h1 : List.Pairwise (fun a b => a ≤ b) l) (h2 : l.Nodup) :
    List.Pairwise (fun a b => a < b) l :=
  (h1.and h2).imp (fun hab => Nat.lt_of_le_of_ne hab.1 hab.2)

/-- The entries kept by a drain pass form a sublist of the queue. -/
theorem drainPass_kept_sublist (ctr : ProcessID → Nat) (q : List qmsg) :
    (drainPass ctr q).2.1.Sublist q := by
  induction q generalizing ctr with
  | nil => simp [drainPass]
  | cons e rest ih =>
    by_cases h : e.count = ctr e.src
    · simp only [drainPass, if_pos h]
      exact (ih _).cons e
    · simp only [drainPass, if_neg h]
      exact (ih ctr).cons₂ e

/-- The entries dispatched by a drain pass come from the queue. -/
theorem drainPass_dispatched_mem (ctr : ProcessID → Nat) (q : List qmsg) :
    ∀ e ∈ (drainPass ctr q).2.2, e ∈ q := by
  induction q generalizing ctr with
  | nil => simp [drainPass]
  | cons e rest ih =>
    by_cases h : e.count = ctr e.src
    · simp only [drainPass, if_pos h]
      intro x hx
      rcases List.mem_cons.mp hx with h1 | h2
      · exact h1 ▸ List.mem_cons_self e rest
      · exact List.mem_cons_of_mem e (ih _ x h2)
    · simp only [drainPass, if_neg h]
      intro x hx
      exact List.mem_cons_of_mem e (ih ctr x hx)

/-- A drain pass never advances the expectation of a source none of
whose pending counters equals it, and leaves that source's pending
entries untouched and undispatched. -/
theorem drainPass_frozen (s : ProcessID) (ctr : ProcessID → Nat) (q : List qmsg)
    (h : ∀ e ∈ q, e.src = s → e.count ≠ ctr s) :
    (drainPass ctr q).1 s = ctr s ∧
    srcCounts s (drainPass ctr q).2.1 = srcCounts s q ∧
    srcCounts s (drainPass ctr q).2.2 = [] := by
  induction q generalizing ctr with
  | nil => exact ⟨rfl, rfl, rfl⟩
  | cons e rest ih =>
    by_cases hd : e.count = ctr e.src
    · have hes : e.src ≠ s := by
        intro heq
        exact h e (List.mem_cons_self e rest) heq (by rw [heq] at hd; exact hd)
      have hctr1 : upd ctr e.src (ctr e.src + 1) s = ctr s :=
        upd_other ctr e.src (ctr e.src + 1) s (Ne.symm hes)
      have h' : ∀ x ∈ rest, x.src = s → x.count ≠ upd ctr e.src (ctr e.src + 1) s := by
        intro x hx hxs
        rw [hctr1]
        exact h x (List.mem_cons_of_mem e hx) hxs
      have r := ih (upd ctr e.src (ctr e.src + 1)) h'
      simp only [drainPass, if_pos hd]
      refine ⟨r.1.trans hctr1, ?_, ?_⟩
      · rw [r.2.1, srcCounts_cons_of_ne s e rest hes]
      · rw [srcCounts_cons_of_ne s e _ hes, r.2.2]
    · have h' : ∀ x ∈ rest, x.src = s → x.count ≠ ctr s := by
        intro x hx hxs
        exact h x (List.mem_cons_of_mem e hx) hxs
      have r := ih ctr h'
      simp only [drainPass, if_neg hd]
      by_cases hes : e.src = s
      · refine ⟨r.1, ?_, r.2.2⟩
        rw [srcCounts_cons_of_src s e _ hes, srcCounts_cons_of_src s e rest hes, r.2.1]
      · refine ⟨r.1, ?_, r.2.2⟩
        rw [srcCounts_cons_of_ne s e _ hes, srcCounts_cons_of_ne s e rest hes, r.2.1]

/-- The main drain lemma for a source s whose pending counters are
strictly increasing and at least the expectation: the pass dispatches
exactly the contiguous run starting at the expectation, in increasing
order; what is kept exceeds the new expectation. -/
theorem drainPass_active (s : ProcessID) (ctr : ProcessID → Nat) (q : List qmsg)
    (hpw : List.Pairwise (fun a b => a < b) (srcCounts s q))
    (hge : ∀ c ∈ srcCounts s q, ctr s ≤ c) :
    ctr s ≤ (drainPass ctr q).1 s ∧
    srcCounts s (drainPass ctr q).2.2 =
      List.range' (ctr s) ((drainPass ctr q).1 s - ctr s) ∧
    srcCounts s q = srcCounts s (drainPass ctr q).2.2 ++ srcCounts s (drainPass ctr q).2.1 ∧
    (∀ c ∈ srcCounts s (drainPass ctr q).2.1, (drainPass ctr q).1 s < c) := by
  induction q generalizing ctr with
  | nil =>
    refine ⟨Nat.le_refl _, ?_, ?_, ?_⟩ <;> simp [drainPass, srcCounts]
  | cons e rest ih =>
    by_cases hes : e.src = s
    · rw [srcCounts_cons_of_src s e rest hes] at hpw hge
      have hhead : ∀ c ∈ srcCounts s rest, e.count < c :=
        fun c hc => (List.pairwise_cons.mp hpw).1 c hc
      have htail : List.Pairwise (fun a b => a < b) (srcCounts s rest) :=
        (List.pairwise_cons.mp hpw).2
      have hce : ctr s ≤ e.count := hge e.count (List.mem_cons_self _ _)
      by_cases hd : e.count = ctr e.src
      · have hcs : e.count = ctr s := by rw [hd, hes]
        have hctr1 : upd ctr e.src (ctr e.src + 1) s = ctr s + 1 := by
          rw [hes, upd_same]
        have hge' : ∀ c ∈ srcCounts s rest, upd ctr e.src (ctr e.src + 1) s ≤ c := by
          intro c hc
          rw [hctr1]
          have := hhead c hc
          omega
        have r := ih (upd ctr e.src (ctr e.src + 1)) htail hge'
        simp only [drainPass, if_pos hd]
        have r1 := r.1
        rw [hctr1] at r1
        refine ⟨by omega, ?_, ?_, r.2.2.2⟩
        · rw [srcCounts_cons_of_src s e _ hes, r.2.1, hctr1]
          have hsub : (drainPass (upd ctr e.src (ctr e.src + 1)) rest).1 s - ctr s =
              ((drainPass (upd ctr e.src (ctr e.src + 1)) rest).1 s - (ctr s + 1)) + 1 := by
            omega
          rw [hsub, List.range'_succ, hcs]
        · rw [srcCounts_cons_of_src s e rest hes, srcCounts_cons_of_src s e _ hes,
            r.2.2.1, List.cons_append]
      · have hlt : ctr s < e.count := by
          rcases Nat.lt_or_ge (ctr s) e.count with h1 | h1
          · exact h1
          · exfalso
            have : e.count = ctr s := Nat.le_antisymm (by omega) hce
            rw [hes] at hd
            exact hd this
        have hfr : ∀ x ∈ rest, x.src = s → x.count ≠ ctr s := by
          intro x hx hxs
          have : x.count ∈ srcCounts s rest := mem_srcCounts s rest x hx hxs
          have := hhead x.count this
          omega
        have f := drainPass_frozen s ctr rest hfr
        simp only [drainPass, if_neg hd]
        refine ⟨by rw [f.1], ?_, ?_, ?_⟩
        · rw [f.2.2, f.1]
          simp
        · rw [f.2.2, srcCounts_cons_of_src s e rest hes,
            srcCounts_cons_of_src s e _ hes, f.2.1]
          simp
        · intro c hc
          rw [srcCounts_cons_of_src s e _ hes] at hc
          rw [f.1]
          rcases List.mem_cons.mp hc with h1 | h1
          · omega
          · rw [f.2.1] at h1
            have := hhead c h1
            omega
    · rw [srcCounts_cons_of_ne s e rest hes] at hpw hge
      by_cases hd : e.count = ctr e.src
      · have hctr1 : upd ctr e.src (ctr e.src + 1) s = ctr s :=
          upd_other ctr e.src (ctr e.src + 1) s (fun h => hes h.symm)
        have hge' : ∀ c ∈ srcCounts s rest, upd ctr e.src (ctr e.src + 1) s ≤ c := by
          intro c hc
          rw [hctr1]
          exact hge c hc
        have r := ih (upd ctr e.src (ctr e.src + 1)) hpw hge'
        have r1 := r.1
        rw [hctr1] at r1
        simp only [drainPass, if_pos hd]
        refine ⟨r1, ?_, ?_, r.2.2.2⟩
        · rw [srcCounts_cons_of_ne s e _ hes, r.2.1, hctr1]
        · rw [srcCounts_cons_of_ne s e rest hes, srcCounts_cons_of_ne s e _ hes]
          exact r.2.2.1
      · have r := ih ctr hpw hge
        simp only [drainPass, if_neg hd]
        refine ⟨r.1, r.2.1, ?_, ?_⟩
        · rw [srcCounts_cons_of_ne s e rest hes, srcCounts_cons_of_ne s e _ hes]
          exact r.2.2.1
        · intro c hc
          rw [srcCounts_cons_of_ne s e _ hes] at hc
          exact r.2.2.2 c hc

/-- processMsg on an in-order ordered message: dispatch, advance, drain. -/
theorem processMsg_dispatch (st : RmiState) (m : qmsg)
    (ho : is_ordered m.attr = true) (hc : m.count = st.counters m.src) :
    processMsg st m =
      { counters := (drainPass (upd st.counters m.src (st.counters m.src + 1)) st.q).1,
        q := (drainPass (upd st.counters m.src (st.counters m.src + 1)) st.q).2.1,
        log := st.log ++ m :: (drainPass (upd st.counters m.src (st.counters m.src + 1)) st.q).2.2 } := by
  simp [processMsg, ho, hc]

/-- processMsg on an out-of-order ordered message: sorted insertion. -/
theorem processMsg_insert (st : RmiState) (m : qmsg)
    (ho : is_ordered m.attr = true) (hc : ¬ m.count = st.counters m.src) :
    processMsg st m = { st with q := List.orderedInsert qle m st.q } := by
  simp [processMsg, ho, hc]

/-- processMsg on an unordered message: immediate dispatch. -/
theorem processMsg_unordered (st : RmiState) (m : qmsg)
    (ho : is_ordered m.attr = false) :
    processMsg st m = { st with log := st.log ++ [m] } := by
  simp [processMsg, ho]

/-- One step of the ordering-engine invariant: processing any arrival
preserves the invariant for any fixed source s, extending the account of
processed ordered counters of s when the arrival is one. -/
theorem inv_step (s : ProcessID) (doneS : List Nat) (st : RmiState) (m : qmsg)
    (hInv : EngineInv s doneS st) (hnd : doneS.Nodup)
    (hfresh : (decide (m.src = s) && is_ordered m.attr) = true → m.count ∉ doneS) :
    EngineInv s (doneS ++ okeys s [m]) (processMsg st m) := by
  by_cases ho : is_ordered m.attr = true
  · by_cases hc : m.count = st.counters m.src
    · -- in-order dispatch followed by a drain pass
      rw [processMsg_dispatch st m ho hc]
      set D := drainPass (upd st.counters m.src (st.counters m.src + 1)) st.q with hD
      by_cases hm : m.src = s
      · -- the dispatched message is from source s
        have hkey : okeys s [m] = [m.count] := by
          simp [okeys, List.filter_cons, hm, ho]
        have hmcs : m.count = st.counters s := by rw [hc, hm]
        have hctr1s : upd st.counters m.src (st.counters m.src + 1) s = st.counters s + 1 := by
          rw [hm, upd_same]
        have hnodupq : (srcCounts s st.q).Nodup :=
          List.Nodup.of_append_left (hInv.hperm.symm.nodup hnd)
        have hpw : List.Pairwise (fun a b => a < b) (srcCounts s st.q) :=
          pairwise_lt_of_le_nodup _ (srcCounts_pairwise_le s st.q hInv.hsorted) hnodupq
        have hge : ∀ c ∈ srcCounts s st.q,
            upd st.counters m.src (st.counters m.src + 1) s ≤ c := by
          intro c hcq
          rw [hctr1s]
          have := hInv.hqgt c hcq
          omega
        have r := drainPass_active s (upd st.counters m.src (st.counters m.src + 1)) st.q hpw hge
        rw [← hD] at r
        have r1 : st.counters s + 1 ≤ D.1 s := by
          have := r.1
          rw [hctr1s] at this
          exact this
        have hrange2 : srcCounts s D.2.2 =
            List.range' (st.counters s + 1) (D.1 s - (st.counters s + 1)) := by
          rw [r.2.1, hctr1s]
        have hjoin : ∀ a k : Nat, List.range a ++ List.range' a k = List.range (a + k) := by
          intro a k
          rw [List.range_eq_range', List.range_eq_range']
          have := List.range'_append_1 0 a k
          simpa [Nat.add_comm] using this
        have hordD : ∀ e ∈ D.2.2, is_ordered e.attr = true :=
          fun e he => hInv.hord e (drainPass_dispatched_mem _ _ e he)
        refine ⟨?_, ?_, ?_, ?_, ?_⟩
        · exact List.Pairwise.sublist (drainPass_kept_sublist _ _) hInv.hsorted
        · intro e he
          exact hInv.hord e ((drainPass_kept_sublist _ _).subset he)
        · show okeys s (st.log ++ m :: D.2.2) = List.range (D.1 s)
          rw [okeys_append, hInv.hlog, okeys_cons_of_key s m _ hm ho,
            okeys_eq_srcCounts s D.2.2 hordD, hrange2, hmcs]
          have hsucc : st.counters s ::
              List.range' (st.counters s + 1) (D.1 s - (st.counters s + 1)) =
              List.range' (st.counters s) (D.1 s - st.counters s) := by
            have hk : D.1 s - st.counters s = (D.1 s - (st.counters s + 1)) + 1 := by
              omega
            rw [hk, List.range'_succ]
          rw [hsucc, hjoin]
          congr 1
          omega
        · show ∀ c ∈ srcCounts s D.2.1, D.1 s < c
          exact r.2.2.2
        · show (srcCounts s D.2.1 ++ List.range (D.1 s)).Perm (doneS ++ okeys s [m])
          rw [hkey]
          have hr3 := r.2.2.1
          have hsplit : List.range (D.1 s) =
              (List.range (st.counters s) ++ [st.counters s]) ++ srcCounts s D.2.2 := by
            rw [hrange2, ← List.range_succ, hjoin]
            congr 1
            omega
          calc srcCounts s D.2.1 ++ List.range (D.1 s)
              = srcCounts s D.2.1 ++
                ((List.range (st.counters s) ++ [st.counters s]) ++ srcCounts s D.2.2) := by
                rw [hsplit]
            _ ~ ((List.range (st.counters s) ++ [st.counters s]) ++ srcCounts s D.2.2) ++
                srcCounts s D.2.1 := List.perm_append_comm
            _ = (List.range (st.counters s) ++ [st.counters s]) ++
                (srcCounts s D.2.2 ++ srcCounts s D.2.1) := by
                rw [List.append_assoc]
            _ = (List.range (st.counters s) ++ [st.counters s]) ++ srcCounts s st.q := by
                rw [← hr3]
            _ ~ srcCounts s st.q ++ (List.range (st.counters s) ++ [st.counters s]) :=
                List.perm_append_comm
            _ = (srcCounts s st.q ++ List.range (st.counters s)) ++ [st.counters s] := by
                rw [List.append_assoc]
            _ ~ doneS ++ [st.counters s] := List.Perm.append_right _ hInv.hperm
            _ = doneS ++ [m.count] := by rw [hmcs]
      · -- the dispatched message is from another source: s is untouched
        have hkey : okeys s [m] = [] := by
          simp [okeys, List.filter_cons, hm]
        have hctr1s : upd st.counters m.src (st.counters m.src + 1) s = st.counters s :=
          upd_other _ _ _ _ (fun h => hm h.symm)
        have hfr : ∀ e ∈ st.q, e.src = s →
            e.count ≠ upd st.counters m.src (st.counters m.src + 1) s := by
          intro e he hes
          rw [hctr1s]
          have := hInv.hqgt e.count (mem_srcCounts s st.q e he hes)
          omega
        have f := drainPass_frozen s (upd st.counters m.src (st.counters m.src + 1)) st.q hfr
        rw [← hD] at f
        have hf1 : D.1 s = st.counters s := f.1.trans hctr1s
        have hordD : ∀ e ∈ D.2.2, is_ordered e.attr = true :=
          fun e he => hInv.hord e (drainPass_dispatched_mem _ _ e he)
        refine ⟨?_, ?_, ?_, ?_, ?_⟩
        · exact List.Pairwise.sublist (drainPass_kept_sublist _ _) hInv.hsorted
        · intro e he
          exact hInv.hord e ((drainPass_kept_sublist _ _).subset he)
        · show okeys s (st.log ++ m :: D.2.2) = List.range (D.1 s)
          rw [okeys_append, hInv.hlog, okeys_cons_of_ne s m _ hm,
            okeys_eq_srcCounts s D.2.2 hordD, f.2.2, hf1, List.append_nil]
        · show ∀ c ∈ srcCounts s D.2.1, D.1 s < c
          intro c hcq
          rw [hf1]
          rw [f.2.1] at hcq
          exact hInv.hqgt c hcq
        · show (srcCounts s D.2.1 ++ List.range (D.1 s)).Perm (doneS ++ okeys s [m])
          rw [hkey, List.append_nil, f.2.1, hf1]
          exact hInv.hperm
    · -- out-of-order ordered message: sorted insertion into the queue
      rw [processMsg_insert st m ho hc]
      have hordins : ∀ e ∈ List.orderedInsert qle m st.q, is_ordered e.attr = true := by
        intro e he
        rcases List.mem_cons.mp ((List.perm_orderedInsert qle m st.q).mem_iff.mp he) with h1 | h1
        · rw [h1]; exact ho
        · exact hInv.hord e h1
      have hsortins : (List.orderedInsert qle m st.q).Sorted qle :=
        List.Sorted.orderedInsert m st.q hInv.hsorted
      have hpq : (srcCounts s (List.orderedInsert qle m st.q)).Perm
          (srcCounts s (m :: st.q)) :=
        srcCounts_perm s (List.perm_orderedInsert qle m st.q)
      by_cases hm : m.src = s
      · have hkey : okeys s [m] = [m.count] := by
          simp [okeys, List.filter_cons, hm, ho]
        have hfresh' : m.count ∉ doneS := hfresh (by simp [hm, ho])
        have hnotin : m.count ∉ srcCounts s st.q ++ List.range (st.counters s) := by
          intro hin
          exact hfresh' (hInv.hperm.mem_iff.mp hin)
        have nin1 : m.count ∉ srcCounts s st.q :=
          fun h => hnotin (List.mem_append.mpr (Or.inl h))
        have nin2 : m.count ∉ List.range (st.counters s) :=
          fun h => hnotin (List.mem_append.mpr (Or.inr h))
        have hlt : st.counters s < m.count := by
          have h1 : ¬ m.count < st.counters s := fun h => nin2 (List.mem_range.mpr h)
          have h2 : m.count ≠ st.counters s := by rw [hm] at hc; exact hc
          omega
        have hpc : (srcCounts s (List.orderedInsert qle m st.q)).Perm
            (m.count :: srcCounts s st.q) := by
          rw [srcCounts_cons_of_src s m st.q hm] at hpq
          exact hpq
        refine ⟨hsortins, hordins, hInv.hlog, ?_, ?_⟩
        · intro c hcq
          rcases List.mem_cons.mp (hpc.mem_iff.mp hcq) with h1 | h1
          · rw [h1]; exact hlt
          · exact hInv.hqgt c h1
        · show (srcCounts s (List.orderedInsert qle m st.q) ++
              List.range (st.counters s)).Perm (doneS ++ okeys s [m])
          rw [hkey]
          calc srcCounts s (List.orderedInsert qle m st.q) ++ List.range (st.counters s)
              ~ (m.count :: srcCounts s st.q) ++ List.range (st.counters s) :=
                List.Perm.append_right _ hpc
            _ = m.count :: (srcCounts s st.q ++ List.range (st.counters s)) := by
                rw [List.cons_append]
            _ ~ m.count :: doneS := List.Perm.cons m.count hInv.hperm
            _ ~ doneS ++ [m.count] := (List.perm_append_singleton m.count doneS).symm
      · have hkey : okeys s [m] = [] := by
          simp [okeys, List.filter_cons, hm]
        have hpc : (srcCounts s (List.orderedInsert qle m st.q)).Perm
            (srcCounts s st.q) := by
          rw [srcCounts_cons_of_ne s m st.q hm] at hpq
          exact hpq
        refine ⟨hsortins, hordins, hInv.hlog, ?_, ?_⟩
        · intro c hcq
          exact hInv.hqgt c (hpc.mem_iff.mp hcq)
        · show (srcCounts s (List.orderedInsert qle m st.q) ++
              List.range (st.counters s)).Perm (doneS ++ okeys s [m])
          rw [hkey, List.append_nil]
          exact (List.Perm.append_right _ hpc).trans hInv.hperm
  · -- unordered message: immediate dispatch, engine state unchanged
    have hof : is_ordered m.attr = false := by
      simpa using ho
    rw [processMsg_unordered st m hof]
    have hkey : okeys s [m] = [] := by
      simp [okeys, List.filter_cons, hof]
    refine ⟨hInv.hsorted, hInv.hord, ?_, hInv.hqgt, ?_⟩
    · show okeys s (st.log ++ [m]) = List.range (st.counters s)
      rw [okeys_append, hInv.hlog, hkey, List.append_nil]
    · show (srcCounts s st.q ++ List.range (st.counters s)).Perm (doneS ++ okeys s [m])
      rw [hkey, List.append_nil]
      exact hInv.hperm

/-- Folding the invariant over a whole arrival sequence. -/
theorem inv_processAll (s : ProcessID) (arr : List qmsg) :
    ∀ (doneS : List Nat) (st : RmiState), EngineInv s doneS st →
      (doneS ++ okeys s arr).Nodup →
      EngineInv s (doneS ++ okeys s arr) (processAll arr st) := by
  induction arr with
  | nil =>
    intro doneS st hInv hnd
    simpa [processAll, okeys] using hInv
  | cons m rest ih =>
    intro doneS st hInv hnd
    have hsplit : okeys s (m :: rest) = okeys s [m] ++ okeys s rest := by
      rw [show m :: rest = [m] ++ rest from rfl, okeys_append]
    have hndm : doneS.Nodup := by
      exact List.Nodup.of_append_left hnd
    have hfresh : (decide (m.src = s) && is_ordered m.attr) = true → m.count ∉ doneS := by
      intro hkeyb hmem
      have hparts := Bool.and_eq_true_iff.mp hkeyb
      have hs : m.src = s := of_decide_eq_true hparts.1
      have hok : okeys s (m :: rest) = m.count :: okeys s rest :=
        okeys_cons_of_key s m rest hs hparts.2
      rw [hok] at hnd
      have hdisj := (List.nodup_append.mp hnd).2.2
      exact hdisj hmem (List.mem_cons_self _ _)
    have hnd' : ((doneS ++ okeys s [m]) ++ okeys s rest).Nodup := by
      rw [List.append_assoc, ← hsplit]
      exact hnd
    have hstep := inv_step s doneS st m hInv hndm hfresh
    have := ih (doneS ++ okeys s [m]) (processMsg st m) hstep hnd'
    rw [hsplit, ← List.append_assoc]
    simpa [processAll] using this

/-- C1: for any sequence of K ordered sends from a source s (counters 0
through K-1), arriving at the dispatcher in any order and arbitrarily
interleaved with unordered traffic and with traffic from other sources,
the ordered handler invocations for s occur exactly in counter order
0, 1, ..., K-1.  Handlers run synchronously one after another on the
single dispatcher thread, so an earlier log entry's invocation completes
before the next begins. -/
theorem ordered_sends_handled_in_counter_order (s : ProcessID) (K : Nat) (arr : List qmsg)
    (hperm : (okeys s arr).Perm (List.range K)) :
    okeys s (processAll arr initState).log = List.range K := by
  have hInv0 : EngineInv s [] initState := by
    refine ⟨?_, ?_, ?_, ?_, ?_⟩ <;> simp [initState, srcCounts, okeys]
  have hnd : ([] ++ okeys s arr).Nodup := by
    simp only [List.nil_append]
    exact hperm.symm.nodup (List.nodup_range K)
  have hfin := inv_processAll s arr [] initState hInv0 hnd
  simp only [List.nil_append] at hfin
  have hcomb : (srcCounts s (processAll arr initState).q ++
      List.range ((processAll arr initState).counters s)).Perm (List.range K) :=
    hfin.hperm.trans hperm
  have hlen : (srcCounts s (processAll arr initState).q).length +
      (processAll arr initState).counters s = K := by
    have := hcomb.length_eq
    simpa using this
  have hnK : (processAll arr initState).counters s = K := by
    by_contra hne
    have hlt : (processAll arr initState).counters s < K := by omega
    have hmem : (processAll arr initState).counters s ∈ List.range K :=
      List.mem_range.mpr hlt
    rcases List.mem_append.mp (hcomb.mem_iff.mpr hmem) with h1 | h1
    · have := hfin.hqgt _ h1
      omega
    · have := List.mem_range.mp h1
      omega
  rw [hfin.hlog, hnK]

/-- Witness for C1: three ordered sends from rank 0 with counters 0,1,2
arrive in the order 2,0,1, interleaved with an unordered message from
rank 0 and an ordered message from rank 5; the handler invocations for
rank 0's ordered messages come out as 0,1,2. -/
theorem ordered_sends_witness :
    ((okeys 0 [⟨4,7,0,0,1,2⟩, ⟨4,9,1,0,0,5⟩, ⟨4,7,2,5,1,0⟩, ⟨4,7,3,0,1,0⟩, ⟨4,7,4,0,1,1⟩]).Perm
        (List.range 3)) ∧
    okeys 0 (processAll [⟨4,7,0,0,1,2⟩, ⟨4,9,1,0,0,5⟩, ⟨4,7,2,5,1,0⟩, ⟨4,7,3,0,1,0⟩, ⟨4,7,4,0,1,1⟩]
        initState).log = List.range 3 :=
  ⟨by decide, ordered_sends_handled_in_counter_order 0 3 _ (by decide)⟩

/-- processMsg keeps the pending queue counter-sorted. -/
theorem processMsg_q_sorted (st : RmiState) (m : qmsg) (h : st.q.Sorted qle) :
    (processMsg st m).q.Sorted qle := by
  by_cases ho : is_ordered m.attr = true
  · by_cases hc : m.count = st.counters m.src
    · rw [processMsg_dispatch st m ho hc]
      exact List.Pairwise.sublist (drainPass_kept_sublist _ _) h
    · rw [processMsg_insert st m ho hc]
      exact List.Sorted.orderedInsert m st.q h
  · rw [processMsg_unordered st m (by simpa using ho)]
    exact h

/-- processAll keeps the pending queue counter-sorted. -/
theorem processAll_q_sorted (arr : List qmsg) : ∀ st : RmiState, st.q.Sorted qle →
    (processAll arr st).q.Sorted qle := by
  induction arr with
  | nil => intro st h; simpa [processAll] using h
  | cons m rest ih =>
    intro st h
    have := ih (processMsg st m) (processMsg_q_sorted st m h)
    simpa [processAll] using this

/-- An entry whose counter equals its own source's expectation is always
dispatched by a drain pass, no matter what entries of other sources are
stuck ahead of it (the per-source counters of the queue must be strictly
increasing, which the engine invariant guarantees). -/
theorem drainPass_dispatches_eligible (e : qmsg) :
    ∀ (q : List qmsg) (ctr : ProcessID → Nat),
      List.Pairwise (fun a b => a < b) (srcCounts e.src q) →
      e ∈ q → e.count = ctr e.src → e ∈ (drainPass ctr q).2.2 := by
  intro q
  induction q with
  | nil =>
    intro ctr _ he _
    cases he
  | cons a rest ih =>
    intro ctr hpw he hc
    rcases List.mem_cons.mp he with rfl | hmem
    · simp only [drainPass, if_pos hc]
      exact List.mem_cons_self _ _
    · by_cases hsrc : a.src = e.src
      · have hsc : srcCounts e.src (a :: rest) = a.count :: srcCounts e.src rest :=
          srcCounts_cons_of_src e.src a rest hsrc
        rw [hsc] at hpw
        have hmemc : e.count ∈ srcCounts e.src rest := mem_srcCounts e.src rest e hmem rfl
        have hlt : a.count < e.count := (List.pairwise_cons.mp hpw).1 _ hmemc
        have hne : ¬ a.count = ctr a.src := by
          rw [hsrc, ← hc]
          omega
        simp only [drainPass, if_neg hne]
        exact ih ctr (List.pairwise_cons.mp hpw).2 hmem hc
      · have hsc : srcCounts e.src (a :: rest) = srcCounts e.src rest :=
          srcCounts_cons_of_ne e.src a rest hsrc
        rw [hsc] at hpw
        by_cases hd : a.count = ctr a.src
        · have hctr1 : upd ctr a.src (ctr a.src + 1) e.src = ctr e.src :=
            upd_other _ _ _ _ (fun h => hsrc h.symm)
          have hc' : e.count = upd ctr a.src (ctr a.src + 1) e.src := by
            rw [hctr1]
            exact hc
          simp only [drainPass, if_pos hd]
          exact List.mem_cons_of_mem a (ih _ hpw hmem hc')
        · simp only [drainPass, if_neg hd]
          exact ih ctr hpw hmem hc

/-- C3 counterexample: after two out-of-order ordered arrivals from the
distinct sources 0 and 1, the two pending messages sit together in the
one shared queue (q / n_in_q, worldrmi.h lines 186-187), so the pending
structure is not instantiated per source rank; moreover the code's
comparison qmsg::operator< relates the two entries across sources. -/
theorem pending_queue_not_per_source :
    (¬ (∀ e1 ∈ (processAll [⟨4,7,0,0,1,5⟩, ⟨4,7,1,1,1,7⟩] initState).q,
        ∀ e2 ∈ (processAll [⟨4,7,0,0,1,5⟩, ⟨4,7,1,1,1,7⟩] initState).q,
          e1.src = e2.src)) ∧
    qmsg.lt ⟨4,7,0,0,1,5⟩ ⟨4,7,1,1,1,7⟩ = true := by
  constructor
  · decide
  · decide

/-- C3 amended: received-but-undispatched ordered messages are held in a
single queue shared by all sources, kept sorted by sequence counter
alone (qmsg::operator< ignores the source); independence across sources
is functional, not structural: the drain compares each entry only with
its own source's expectation, so a pending out-of-order entry from one
source never prevents dispatch of an eligible entry from a different
source. -/
theorem pending_queue_shared_sorted_nonblocking :
    (∀ arr : List qmsg, ((processAll arr initState).q).Sorted qle) ∧
    (∀ (ctr : ProcessID → Nat) (q : List qmsg) (e : qmsg),
        List.Pairwise (fun a b => a < b) (srcCounts e.src q) →
        e ∈ q → e.count = ctr e.src →
        e ∈ (drainPass ctr q).2.2) := by
  constructor
  · intro arr
    exact processAll_q_sorted arr initState (by simp [initState])
  · intro ctr q e hpw he hc
    exact drainPass_dispatches_eligible e q ctr hpw he hc

/-- Witness for C3: the queue reached after two out-of-order arrivals is
counter-sorted, and an eligible entry of source 1 is dispatched by the
drain even though a smaller-counter entry of source 0 is stuck before
it. -/
theorem pending_nonblocking_witness :
    ((processAll [⟨4,7,0,0,1,5⟩, ⟨4,7,1,1,1,7⟩] initState).q).Sorted qle ∧
    (⟨4,7,1,1,1,4⟩ : qmsg) ∈ (drainPass (fun s => if s = 1 then 4 else 0)
        [⟨4,7,0,0,1,1⟩, ⟨4,7,1,1,1,4⟩]).2.2 :=
  ⟨pending_queue_shared_sorted_nonblocking.1 _,
   pending_queue_shared_sorted_nonblocking.2 (fun s => if s = 1 then 4 else 0)
     [⟨4,7,0,0,1,1⟩, ⟨4,7,1,1,1,4⟩] ⟨4,7,1,1,1,4⟩ (by decide) (by decide) (by decide)⟩
